import Mathlib

/-!
Shallow embedding of `scripts/telemetry-toolkit/telem-volts.py` from the
direwolf telemetry toolkit.

The script configures an ADS1115 ADC (full-scale gain 2048 mV, 64 samples
per second), performs one single-ended read of channel 0 obtaining a raw
value in millivolts, rescales it through the voltage divider formula
`volts = raw * 0.001 * (r1+r2) / r2` with `r1 = 1000000.`, `r2 = 100000.`,
and prints the result with `"%.3f" % volts`.  A hardware-specific
calibration line (`volts = volts * 4.98 / 4.889`) is commented out.

Two arithmetic models are used:
* `voltsWith` / `volts` — the conversion formula in exact rational
  arithmetic (the idealised real-number reading of the Python expression);
* `voltsFl` — the same expression evaluated operation by operation in
  IEEE-754 binary64 (Python float) semantics, via `fl`, a round-to-nearest
  ties-to-even model of binary64 on exact rationals (normal range only;
  the script's values are nowhere near overflow or subnormals).

The observable behaviour of one invocation is modelled by `runProgram`,
which maps the result of the single hardware read to the trace of effects
(the ADC bus transaction and the stdout line) and the process exit status.
A read failure models the Adafruit driver raising an exception, which the
script does not catch: Python then prints no output line and exits with
status 1.
-/

unseal Rat.mul Rat.add Rat.sub Rat.inv Rat.ofScientific

set_option maxRecDepth 2000

namespace TelemVolts

/-- ADC full-scale range in millivolts (`gain = 2048` in the script). -/
def gain : ℕ := 2048

/-- Samples per second (`sps = 64` in the script). -/
def sps : ℕ := 64

/-- Upper divider resistance in ohms (`r1 = 1000000.`). -/
def r1 : ℚ := 1000000

/-- Lower divider resistance in ohms (`r2 = 100000.`). -/
def r2 : ℚ := 100000

/-- The script's conversion expression `raw * 0.001 * (r1+r2) / r2` in exact
rational arithmetic, generalised over the divider resistances. -/
def voltsWith (m R1 R2 : ℚ) : ℚ := m * 0.001 * (R1 + R2) / R2

/-- The script's conversion at its compiled-in resistor values. -/
def volts (m : ℚ) : ℚ := voltsWith m r1 r2

/-- The divider's attenuation factor `R2 / (R1 + R2)`, as the spec words it. -/
def attenuation (R1 R2 : ℚ) : ℚ := R2 / (R1 + R2)

/-- Modelled from the spec's wording of `sample_voltage`: rescale the raw
millivolt reading to volts, then divide by the divider's attenuation factor
(i.e. multiply by its inverse).  Used only to compare the spec's description
with the source formula `voltsWith`. -/
def sampleVoltageSpec (m R1 R2 : ℚ) : ℚ := (m * 0.001) / attenuation R1 R2

/-- Round a rational to the nearest integer, ties to even. -/
def roundHalfEvenQ (q : ℚ) : ℤ :=
  let f := ⌊q⌋
  let r := q - f
  if r < 1/2 then f
  else if 1/2 < r then f + 1
  else if f % 2 = 0 then f else f + 1

/-- Base-2 logarithm of a natural number by repeated halving; the first
argument is recursion fuel, and any `fuel ≥ n` computes `⌊log₂ n⌋` for
`n ≥ 1`. -/
def natLog2 : ℕ → ℕ → ℕ
  | 0, _ => 0
  | fuel + 1, n => if n ≤ 1 then 0 else natLog2 fuel (n / 2) + 1

/-- `2^e` as a rational, for an integer exponent. -/
def pow2 (e : ℤ) : ℚ :=
  if 0 ≤ e then ((2 ^ e.toNat : ℕ) : ℚ) else 1 / ((2 ^ (-e).toNat : ℕ) : ℚ)

/-- The binary exponent of a positive rational: the largest `e` with
`2^e ≤ q`.  The difference of the numerator's and denominator's base-2
logarithms gives a first guess within one of the answer, which the two
comparisons correct. -/
def flExp (q : ℚ) : ℤ :=
  let e0 : ℤ := (natLog2 q.num.natAbs q.num.natAbs : ℤ) - (natLog2 q.den q.den : ℤ)
  if pow2 (e0 + 1) ≤ q then e0 + 1
  else if q < pow2 e0 then e0 - 1
  else e0

/-- IEEE-754 binary64 rounding (round to nearest, ties to even) of an exact
rational, modelled for the normal range: the value is scaled so that its
significand occupies 53 bits, rounded to an integer, and scaled back.
Overflow and subnormal handling are omitted; every value the script
computes is well inside the normal range. -/
def fl (q : ℚ) : ℚ :=
  if q = 0 then 0
  else
    let a := |q|
    let e := flExp a
    let m := roundHalfEvenQ (a * pow2 (52 - e))
    (if q < 0 then (-1 : ℚ) else 1) * (m : ℚ) * pow2 (e - 52)

/-- The script's voltage expression
`adc.readADCSingleEnded(0, gain, sps) * 0.001 * (r1+r2) / r2`
in binary64 semantics: Python evaluates it left-associated, rounding after
every operation.  `m` is the exact value of the double returned by the
driver; `0.001` is the binary64 value of that literal, while `r1`, `r2`
and `r1 + r2` happen to be exactly representable. -/
def voltsFl (m : ℚ) : ℚ :=
  fl (fl (fl (m * fl 0.001) * fl (fl r1 + fl r2)) / fl r2)

/-- Whether the hardware-specific calibration line is active.  In the source
it is commented out, so the flag is `false`. -/
def calibrationEnabled : Bool := false

/-- The commented-out calibration correction `volts = volts * 4.98 / 4.889`
in binary64 semantics, applied only when enabled. -/
def applyCalibrationFl (enabled : Bool) (v : ℚ) : ℚ :=
  if enabled then fl (fl (v * fl 4.98) / fl 4.889) else v

/-- Character for the decimal digit `k % 10`. -/
def digitChar (k : ℕ) : Char := Char.ofNat (48 + k % 10)

/-- Decimal digits of `n`, most significant first; `fuel ≥ n` suffices. -/
def natDigitsAux : ℕ → ℕ → List Char
  | 0, _ => []
  | fuel + 1, n => if n = 0 then [] else natDigitsAux fuel (n / 10) ++ [digitChar n]

/-- Decimal digit string of a natural number. -/
def natDigits (n : ℕ) : List Char :=
  if n = 0 then ['0'] else natDigitsAux n n

/-- Exactly three decimal digits of `k % 1000`, zero-padded. -/
def pad3 (k : ℕ) : List Char := [digitChar (k / 100), digitChar (k / 10), digitChar k]

/-- Character content of Python `"%.3f" % v`, for `v` the exact value of a
binary64 double: the value times 1000 is rounded to the nearest integer
(glibc rounds ties to the even digit) and rendered with a sign taken from
the value (so small negative values print as `-0.000`), the integer part,
a dot, and exactly three fractional digits. -/
def fmt3Chars (v : ℚ) : List Char :=
  let a : ℕ := (roundHalfEvenQ (1000 * v)).natAbs
  (if v < 0 then ['-'] else []) ++ natDigits (a / 1000) ++ '.' :: pad3 (a % 1000)

/-- Python `"%.3f" % v` as a string. -/
def fmt3 (v : ℚ) : String := String.mk (fmt3Chars v)

/-- Outcome of the one `adc.readADCSingleEnded(0, gain, sps)` call: either a
millivolt reading (the exact value of the returned double) or a hardware
failure, modelling the driver raising an exception. -/
inductive ReadResult
  | ok (mv : ℚ)
  | unavailable
  deriving DecidableEq

/-- Observable effects of one invocation: a single-ended ADC bus read of a
channel at a gain and sample rate, or a line written to standard output.
The script has no other effects and keeps no state. -/
inductive Effect
  | adcRead (channel gainMv samplesPerSec : ℕ)
  | stdoutLine (line : String)
  deriving DecidableEq

/-- One invocation of the script: perform the single read; on success
convert and print, exiting with status 0; on failure the uncaught driver
exception terminates the process with status 1 and nothing is printed.
Result: the effect trace and the exit status. -/
def runProgram : ReadResult → List Effect × ℕ
  | .ok raw =>
      let v := applyCalibrationFl calibrationEnabled (voltsFl raw)
      ([Effect.adcRead 0 gain sps, Effect.stdoutLine (fmt3 v)], 0)
  | .unavailable => ([Effect.adcRead 0 gain sps], 1)

/-- Entry point including the command line: the script never inspects
`sys.argv`, so the arguments are ignored. -/
def scriptMain (_args : List String) (r : ReadResult) : List Effect × ℕ :=
  runProgram r

/-- The lines written to standard output along a trace. -/
def outputLines (effs : List Effect) : List String :=
  effs.filterMap fun e =>
    match e with
    | .stdoutLine s => some s
    | _ => none

/-- Whether an effect is an ADC read. -/
def isAdcRead : Effect → Bool
  | .adcRead _ _ _ => true
  | _ => false

/-- Whether an effect is a stdout write. -/
def isStdoutLine : Effect → Bool
  | .stdoutLine _ => true
  | _ => false

/-- Boolean test used to split a formatted string at the decimal point. -/
def notDot (c : Char) : Bool := decide (c ≠ '.')

/-- Numeric value of a digit character. -/
def digitVal (c : Char) : ℕ := c.toNat - 48

/-- Value of a digit string read in base 10. -/
def digitsVal (l : List Char) : ℕ := l.foldl (fun a c => 10 * a + digitVal c) 0

/-- The characters after the last `.` of a rendered number. -/
def fracPart (l : List Char) : List Char := (l.reverse.takeWhile notDot).reverse

/-- Parse an unsigned rendered number: integer part up to the dot,
fractional part after it. -/
def ratOfFmtCore (l : List Char) : ℚ :=
  (digitsVal (l.takeWhile notDot) : ℚ) +
    (digitsVal ((l.dropWhile notDot).drop 1) : ℚ) / 10 ^ ((l.dropWhile notDot).drop 1).length

/-- Parse back a string rendered by `fmt3`: optional leading minus, then the
unsigned part. -/
def ratOfFmtChars (l : List Char) : ℚ :=
  if l.head? = some '-' then -(ratOfFmtCore (l.drop 1)) else ratOfFmtCore l

/-- Parse back a `fmt3` string. -/
def ratOfFmt (s : String) : ℚ := ratOfFmtChars s.data

/-! ### Facts about the decimal renderer -/

theorem digitChar_toNat (k : ℕ) : (digitChar k).toNat = 48 + k % 10 := by
  have h : k % 10 < 10 := Nat.mod_lt _ (by norm_num)
  have H : ∀ j, j < 10 → (Char.ofNat (48 + j)).toNat = 48 + j := by decide
  simpa [digitChar] using H (k % 10) h

theorem digitChar_props (k : ℕ) :
    digitChar k ≠ '.' ∧ digitChar k ≠ '-' ∧ (digitChar k).isWhitespace = false := by
  have h : k % 10 < 10 := Nat.mod_lt _ (by norm_num)
  have H : ∀ j, j < 10 → (Char.ofNat (48 + j) ≠ '.' ∧ Char.ofNat (48 + j) ≠ '-' ∧
      (Char.ofNat (48 + j)).isWhitespace = false) := by decide
  simpa [digitChar] using H (k % 10) h

theorem notDot_digitChar (k : ℕ) : notDot (digitChar k) = true := by
  simp [notDot, (digitChar_props k).1]

theorem digitVal_digitChar (k : ℕ) : digitVal (digitChar k) = k % 10 := by
  rw [digitVal, digitChar_toNat]
  omega

theorem digitsVal_append_singleton (l : List Char) (c : Char) :
    digitsVal (l ++ [c]) = 10 * digitsVal l + digitVal c := by
  simp [digitsVal, List.foldl_append]

theorem natDigitsAux_val : ∀ fuel n, n ≤ fuel → digitsVal (natDigitsAux fuel n) = n := by
  intro fuel
  induction fuel with
  | zero =>
      intro n hn
      interval_cases n
      simp [natDigitsAux, digitsVal]
  | succ fuel ih =>
      intro n hn
      by_cases hz : n = 0
      · simp [natDigitsAux, hz, digitsVal]
      · rw [natDigitsAux, if_neg hz, digitsVal_append_singleton, digitVal_digitChar,
          ih (n / 10) (by omega)]
        omega

theorem natDigitsAux_mem : ∀ fuel n c, c ∈ natDigitsAux fuel n → ∃ k, c = digitChar k := by
  intro fuel
  induction fuel with
  | zero => simp [natDigitsAux]
  | succ fuel ih =>
      intro n c hc
      rw [natDigitsAux] at hc
      by_cases hz : n = 0
      · rw [if_pos hz] at hc
        simp at hc
      · rw [if_neg hz, List.mem_append] at hc
        rcases hc with hc | hc
        · exact ih _ _ hc
        · exact ⟨n, by simpa using hc⟩

theorem natDigits_val (n : ℕ) : digitsVal (natDigits n) = n := by
  by_cases hz : n = 0
  · subst hz
    decide
  · rw [natDigits, if_neg hz]
    exact natDigitsAux_val n n le_rfl

theorem natDigits_mem (n : ℕ) (c : Char) (hc : c ∈ natDigits n) : ∃ k, c = digitChar k := by
  by_cases hz : n = 0
  · subst hz
    simp [natDigits] at hc
    exact ⟨0, by rw [hc]; decide⟩
  · rw [natDigits, if_neg hz] at hc
    exact natDigitsAux_mem n n c hc

theorem natDigits_ne_nil (n : ℕ) : natDigits n ≠ [] := by
  by_cases hz : n = 0
  · simp [natDigits, hz]
  · rw [natDigits, if_neg hz]
    obtain ⟨m, rfl⟩ : ∃ m, n = m + 1 := ⟨n - 1, by omega⟩
    rw [natDigitsAux, if_neg hz]
    simp

theorem takeWhile_append_cons (p : Char → Bool) (y : Char) (rest : List Char)
    (hy : p y = false) :
    ∀ xs : List Char, (∀ c ∈ xs, p c = true) →
      (xs ++ y :: rest).takeWhile p = xs ∧ (xs ++ y :: rest).dropWhile p = y :: rest := by
  intro xs
  induction xs with
  | nil => intro _; simp [List.takeWhile, List.dropWhile, hy]
  | cons a xs ih =>
      intro hxs
      have ha : p a = true := hxs a (by simp)
      have hxs' : ∀ c ∈ xs, p c = true := fun c hc => hxs c (by simp [hc])
      simp [List.takeWhile, List.dropWhile, ha, (ih hxs').1, (ih hxs').2]

theorem pad3_mem (k : ℕ) (c : Char) (hc : c ∈ pad3 k) : ∃ j, c = digitChar j := by
  simp [pad3] at hc
  rcases hc with rfl | rfl | rfl
  · exact ⟨k / 100, rfl⟩
  · exact ⟨k / 10, rfl⟩
  · exact ⟨k, rfl⟩

theorem digitsVal_pad3 (k : ℕ) (hk : k < 1000) : digitsVal (pad3 k) = k := by
  simp only [pad3, digitsVal, List.foldl, digitVal_digitChar]
  omega

/-! ### Facts about rounding -/

theorem roundHalfEvenQ_bounds (q : ℚ) :
    ⌊q⌋ ≤ roundHalfEvenQ q ∧ roundHalfEvenQ q ≤ ⌊q⌋ + 1 := by
  rw [roundHalfEvenQ]
  split_ifs <;> omega

theorem roundHalfEvenQ_err (q : ℚ) : |q - roundHalfEvenQ q| ≤ 1 / 2 := by
  have h1 : (⌊q⌋ : ℚ) ≤ q := Int.floor_le q
  have h2 : q < ⌊q⌋ + 1 := Int.lt_floor_add_one q
  rw [roundHalfEvenQ]
  split_ifs with hc1 hc2 hc3
  · rw [abs_of_nonneg (by linarith)]
    linarith
  · rw [abs_of_nonpos (by push_cast; linarith)]
    push_cast
    linarith
  · have he : q - ⌊q⌋ = 1 / 2 := le_antisymm (not_lt.1 hc2) (not_lt.1 hc1)
    rw [abs_of_nonneg (by linarith), he]
  · have he : q - ⌊q⌋ = 1 / 2 := le_antisymm (not_lt.1 hc2) (not_lt.1 hc1)
    rw [abs_of_nonpos (by push_cast; linarith)]
    push_cast
    linarith

theorem roundHalfEvenQ_nonneg (q : ℚ) (hq : 0 ≤ q) : 0 ≤ roundHalfEvenQ q := by
  have := (roundHalfEvenQ_bounds q).1
  have : (0 : ℤ) ≤ ⌊q⌋ := Int.floor_nonneg.2 hq
  omega

theorem roundHalfEvenQ_nonpos (q : ℚ) (hq : q < 0) : roundHalfEvenQ q ≤ 0 := by
  have hb := (roundHalfEvenQ_bounds q).2
  have : ⌊q⌋ < 0 := Int.floor_lt.2 (by simpa using hq)
  omega

/-! ### Structure of the rendered string -/

theorem fmt3_data (v : ℚ) :
    (fmt3 v).data =
      (if v < 0 then ['-'] else []) ++
        natDigits ((roundHalfEvenQ (1000 * v)).natAbs / 1000) ++
          '.' :: pad3 ((roundHalfEvenQ (1000 * v)).natAbs % 1000) := rfl

theorem ratOfFmtCore_build (ipn k : ℕ) (hk : k < 1000) :
    ratOfFmtCore (natDigits ipn ++ '.' :: pad3 k) = ipn + (k : ℚ) / 1000 := by
  have hsplit := takeWhile_append_cons notDot '.' (pad3 k) (by decide) (natDigits ipn)
    (fun c hc => by obtain ⟨j, rfl⟩ := natDigits_mem ipn c hc; exact notDot_digitChar j)
  rw [ratOfFmtCore, hsplit.1, hsplit.2]
  simp only [List.drop_one, List.tail_cons, natDigits_val, digitsVal_pad3 k hk,
    show (pad3 k).length = 3 from rfl]
  norm_num

theorem mem_of_head?_eq_some {l : List Char} {a : Char} (h : l.head? = some a) : a ∈ l := by
  cases l with
  | nil => simp at h
  | cons b t => simp at h; simp [h]

theorem ratOfFmtChars_dash (l : List Char) : ratOfFmtChars ('-' :: l) = -(ratOfFmtCore l) := by
  rw [ratOfFmtChars]
  simp

theorem fmt3_build_core (a : ℕ) :
    ratOfFmtCore (natDigits (a / 1000) ++ '.' :: pad3 (a % 1000)) = (a : ℚ) / 1000 := by
  have h1000 : (1000 : ℚ) ≠ 0 := by norm_num
  have hd : (1000 * (a / 1000) + a % 1000 : ℕ) = a := Nat.div_add_mod a 1000
  rw [ratOfFmtCore_build (a / 1000) (a % 1000) (Nat.mod_lt _ (by norm_num)),
    eq_div_iff h1000, add_mul, div_mul_cancel₀ _ h1000]
  exact_mod_cast show ((a / 1000) * 1000 + a % 1000 : ℕ) = a by omega

theorem head?_build_not_dash (a : ℕ) :
    (natDigits (a / 1000) ++ '.' :: pad3 (a % 1000)).head? ≠ some '-' := by
  intro h
  have hmem := mem_of_head?_eq_some h
  rw [List.mem_append] at hmem
  rcases hmem with hm | hm
  · obtain ⟨j, hj⟩ := natDigits_mem _ _ hm
    exact (digitChar_props j).2.1 hj.symm
  · rcases List.mem_cons.1 hm with hm | hm
    · simp at hm
    · obtain ⟨j, hj⟩ := pad3_mem _ _ hm
      exact (digitChar_props j).2.1 hj.symm

/-- Parsing back the rendered string recovers exactly the rounded value:
the emitted text is `v` rounded to three decimal places. -/
theorem ratOfFmt_fmt3 (v : ℚ) :
    ratOfFmt (fmt3 v) = (roundHalfEvenQ (1000 * v) : ℚ) / 1000 := by
  rw [ratOfFmt, fmt3_data]
  by_cases hv : v < 0
  · have hn : roundHalfEvenQ (1000 * v) ≤ 0 :=
      roundHalfEvenQ_nonpos _ (mul_neg_of_pos_of_neg (by norm_num) hv)
    rw [if_pos hv]
    simp only [List.cons_append, List.nil_append]
    rw [ratOfFmtChars_dash, fmt3_build_core, Int.cast_natAbs, abs_of_nonpos hn]
    push_cast
    ring
  · have hn : 0 ≤ roundHalfEvenQ (1000 * v) :=
      roundHalfEvenQ_nonneg _ (mul_nonneg (by norm_num) (not_lt.1 hv))
    rw [if_neg hv, ratOfFmtChars, List.nil_append,
      if_neg (head?_build_not_dash (roundHalfEvenQ (1000 * v)).natAbs), fmt3_build_core]
    congr 1
    rw [Int.cast_natAbs, abs_of_nonneg hn]

theorem fracPart_build (pre : List Char) (k : ℕ) :
    fracPart (pre ++ '.' :: pad3 k) = pad3 k := by
  have hmem : ∀ c ∈ (pad3 k).reverse, notDot c = true := by
    intro c hc
    rw [List.mem_reverse] at hc
    obtain ⟨j, rfl⟩ := pad3_mem _ _ hc
    exact notDot_digitChar j
  rw [fracPart, List.reverse_append,
    show ('.' :: pad3 k).reverse = (pad3 k).reverse ++ ['.'] by simp,
    List.append_assoc, List.singleton_append,
    (takeWhile_append_cons notDot '.' pre.reverse (by decide) _ hmem).1,
    List.reverse_reverse]

theorem fracPart_fmt3 (v : ℚ) :
    fracPart (fmt3 v).data = pad3 ((roundHalfEvenQ (1000 * v)).natAbs % 1000) := by
  rw [fmt3_data]
  exact fracPart_build _ _

theorem fmt3_no_ws (v : ℚ) : ∀ c ∈ (fmt3 v).data, c.isWhitespace = false := by
  intro c hc
  rw [fmt3_data] at hc
  by_cases hv : v < 0 <;>
    [rw [if_pos hv] at hc; rw [if_neg hv] at hc] <;>
    simp only [List.mem_append, List.mem_cons, List.mem_singleton, List.not_mem_nil,
      false_or, or_false] at hc
  · rcases hc with (rfl | hd) | rfl | hp
    · decide
    · obtain ⟨j, rfl⟩ := natDigits_mem _ _ hd
      exact (digitChar_props j).2.2
    · decide
    · obtain ⟨j, rfl⟩ := pad3_mem _ _ hp
      exact (digitChar_props j).2.2
  · rcases hc with hd | rfl | hp
    · obtain ⟨j, rfl⟩ := natDigits_mem _ _ hd
      exact (digitChar_props j).2.2
    · decide
    · obtain ⟨j, rfl⟩ := pad3_mem _ _ hp
      exact (digitChar_props j).2.2

theorem fmt3_no_ws_bool (v : ℚ) :
    ((fmt3 v).data.all fun c => !c.isWhitespace) = true := by
  rw [List.all_eq_true]
  intro c hc
  simp [fmt3_no_ws v c hc]

theorem fmt3_err (v : ℚ) : |ratOfFmt (fmt3 v) - v| ≤ 1 / 2000 := by
  rw [ratOfFmt_fmt3]
  have h := roundHalfEvenQ_err (1000 * v)
  have he : (roundHalfEvenQ (1000 * v) : ℚ) / 1000 - v =
      -((1000 * v - roundHalfEvenQ (1000 * v)) / 1000) := by ring
  rw [he, abs_neg, abs_div, abs_of_pos (show (0 : ℚ) < 1000 by norm_num),
    show (1 : ℚ) / 2000 = (1 / 2) / 1000 by norm_num]
  exact (div_le_div_iff_of_pos_right (by norm_num)).2 h

/-! ### Sanity checks of the binary64 model -/

theorem pow2_eq_zpow (e : ℤ) : pow2 e = (2 : ℚ) ^ e := by
  rw [pow2]
  split_ifs with h
  · push_cast
    rw [← zpow_natCast, Int.toNat_of_nonneg h]
  · push_cast
    rw [one_div, ← zpow_natCast, Int.toNat_of_nonneg (by omega : (0 : ℤ) ≤ -e),
      ← zpow_neg, neg_neg]

theorem natLog2_spec : ∀ fuel n, n ≤ fuel → 1 ≤ n →
    2 ^ natLog2 fuel n ≤ n ∧ n < 2 ^ (natLog2 fuel n + 1) := by
  intro fuel
  induction fuel with
  | zero => intro n h1 h2; omega
  | succ fuel ih =>
      intro n hn h1
      by_cases hs : n ≤ 1
      · have h : n = 1 := by omega
        subst h
        simp [natLog2]
      · rw [natLog2, if_neg hs]
        obtain ⟨ha, hb⟩ := ih (n / 2) (by omega) (by omega)
        simp only [pow_succ] at hb ⊢
        omega

theorem flExp_spec (q : ℚ) (hq : 0 < q) : pow2 (flExp q) ≤ q ∧ q < pow2 (flExp q + 1) := by
  have hnum : 0 < q.num := Rat.num_pos.2 hq
  have hden : 0 < q.den := q.den_pos
  obtain ⟨hA1, hA2⟩ := natLog2_spec q.num.natAbs q.num.natAbs le_rfl (by omega)
  obtain ⟨hB1, hB2⟩ := natLog2_spec q.den q.den le_rfl hden
  have hbQ : (0 : ℚ) < (q.den : ℚ) := by exact_mod_cast hden
  have hq_eq : q = (q.num.natAbs : ℚ) / (q.den : ℚ) := by
    rw [Int.cast_natAbs, abs_of_nonneg hnum.le]
    exact (Rat.num_div_den q).symm
  have key_up : q <
      (2 : ℚ) ^ ((natLog2 q.num.natAbs q.num.natAbs : ℤ) - natLog2 q.den q.den + 1) := by
    conv_lhs => rw [hq_eq]
    rw [show ((natLog2 q.num.natAbs q.num.natAbs : ℤ) - natLog2 q.den q.den + 1) =
        ((natLog2 q.num.natAbs q.num.natAbs + 1 : ℕ) : ℤ) - ((natLog2 q.den q.den : ℕ) : ℤ)
        by push_cast; ring,
      zpow_sub₀ (by norm_num : (2 : ℚ) ≠ 0), zpow_natCast, zpow_natCast,
      div_lt_div_iff₀ hbQ (by positivity)]
    calc (q.num.natAbs : ℚ) * (2 : ℚ) ^ natLog2 q.den q.den
        < (2 : ℚ) ^ (natLog2 q.num.natAbs q.num.natAbs + 1) * (2 : ℚ) ^ natLog2 q.den q.den :=
          mul_lt_mul_of_pos_right (by exact_mod_cast hA2) (by positivity)
      _ ≤ (2 : ℚ) ^ (natLog2 q.num.natAbs q.num.natAbs + 1) * (q.den : ℚ) :=
          mul_le_mul_of_nonneg_left (by exact_mod_cast hB1) (by positivity)
  have key_low :
      (2 : ℚ) ^ ((natLog2 q.num.natAbs q.num.natAbs : ℤ) - natLog2 q.den q.den - 1) < q := by
    conv_rhs => rw [hq_eq]
    rw [show ((natLog2 q.num.natAbs q.num.natAbs : ℤ) - natLog2 q.den q.den - 1) =
        ((natLog2 q.num.natAbs q.num.natAbs : ℕ) : ℤ) - ((natLog2 q.den q.den + 1 : ℕ) : ℤ)
        by push_cast; ring,
      zpow_sub₀ (by norm_num : (2 : ℚ) ≠ 0), zpow_natCast, zpow_natCast,
      div_lt_div_iff₀ (by positivity) hbQ]
    calc (2 : ℚ) ^ natLog2 q.num.natAbs q.num.natAbs * (q.den : ℚ)
        < (2 : ℚ) ^ natLog2 q.num.natAbs q.num.natAbs * (2 : ℚ) ^ (natLog2 q.den q.den + 1) :=
          mul_lt_mul_of_pos_left (by exact_mod_cast hB2) (by positivity)
      _ ≤ (q.num.natAbs : ℚ) * (2 : ℚ) ^ (natLog2 q.den q.den + 1) :=
          mul_le_mul_of_nonneg_right (by exact_mod_cast hA1) (by positivity)
  rw [flExp]
  simp only [pow2_eq_zpow]
  split_ifs with hc1 hc2
  · exact absurd hc1 (not_le.2 key_up)
  · refine ⟨key_low.le, ?_⟩
    rw [sub_add_cancel]
    exact hc2
  · exact ⟨not_lt.1 hc2, key_up⟩

/-- Cross-checks of `fl` against the independently computed IEEE-754
binary64 values of the literals the script uses. -/
theorem fl_spot_checks :
    fl 0.001 = 1152921504606847 / 1152921504606846976 ∧
    fl 444.5 = 444.5 ∧
    fl (fl r1 + fl r2) = 1100000 ∧
    fl 4.98 = 1401745384019067 / 281474976710656 ∧
    fl 4.889 = 5504524644553589 / 1125899906842624 := by decide

/-- C1: for every raw millivolt reading `m` and divider resistances
`R1, R2 > 0`, the conversion computes `m * 0.001 * (R1 + R2) / R2`: the
source formula `voltsWith` is definitionally that expression, the spec's
description of `sample_voltage` (rescale to volts, then undo the divider's
attenuation `R2 / (R1 + R2)`) agrees with it, and the script's `volts`
instantiates it at the compiled-in resistances. -/
theorem volts_conversion_correct (m R1 R2 : ℚ) (hR1 : 0 < R1) (hR2 : 0 < R2) :
    voltsWith m R1 R2 = m * 0.001 * (R1 + R2) / R2 ∧
    sampleVoltageSpec m R1 R2 = m * 0.001 * (R1 + R2) / R2 ∧
    volts m = m * 0.001 * (r1 + r2) / r2 := by
  refine ⟨rfl, ?_, rfl⟩
  rw [sampleVoltageSpec, attenuation, div_div_eq_mul_div]

/-- Witness for C1 at `m = 444.5`, `R1 = 1000000`, `R2 = 100000`. -/
theorem volts_conversion_correct_witness :
    (0 : ℚ) < 1000000 ∧ (0 : ℚ) < 100000 ∧
      (voltsWith 444.5 1000000 100000 = 444.5 * 0.001 * (1000000 + 100000) / 100000 ∧
       sampleVoltageSpec 444.5 1000000 100000 = 444.5 * 0.001 * (1000000 + 100000) / 100000 ∧
       volts 444.5 = 444.5 * 0.001 * (r1 + r2) / r2) :=
  ⟨by norm_num, by norm_num,
    volts_conversion_correct 444.5 1000000 100000 (by norm_num) (by norm_num)⟩

/-- C2: for every reading, the program emits exactly one output line, that
line is the computed voltage `v` rendered by `fmt3`, parsing the line back
yields exactly `v` rounded to the nearest thousandth (so it differs from
`v` by at most `1/2000`), the part after the decimal point is exactly three
digits, and no character of the line is whitespace (the single line
terminator added by `print` is modelled by the line list itself). -/
theorem output_single_line_rounded (raw : ℚ) :
    outputLines (runProgram (ReadResult.ok raw)).1 =
        [fmt3 (applyCalibrationFl calibrationEnabled (voltsFl raw))] ∧
    ratOfFmt (fmt3 (applyCalibrationFl calibrationEnabled (voltsFl raw))) =
        (roundHalfEvenQ (1000 * applyCalibrationFl calibrationEnabled (voltsFl raw)) : ℚ)
          / 1000 ∧
    |ratOfFmt (fmt3 (applyCalibrationFl calibrationEnabled (voltsFl raw))) -
        applyCalibrationFl calibrationEnabled (voltsFl raw)| ≤ 1 / 2000 ∧
    (fracPart (fmt3 (applyCalibrationFl calibrationEnabled (voltsFl raw))).data).length = 3 ∧
    ((fmt3 (applyCalibrationFl calibrationEnabled (voltsFl raw))).data.all
        fun c => !c.isWhitespace) = true :=
  ⟨rfl, ratOfFmt_fmt3 _, fmt3_err _, by rw [fracPart_fmt3]; rfl, fmt3_no_ws_bool _⟩

/-- C3: when the hardware read fails, the program emits no output line,
exits with a non-zero status, and performs no retry (its trace holds exactly
the one attempted bus read). -/
theorem hardware_failure_no_output :
    outputLines (runProgram ReadResult.unavailable).1 = [] ∧
    (runProgram ReadResult.unavailable).2 ≠ 0 ∧
    (runProgram ReadResult.unavailable).1 = [Effect.adcRead 0 gain sps] := by decide

/-- C4: a raw reading of 1000.0 mV with the compiled-in divider gives the
voltage 11 — both in exact arithmetic and in binary64 — and the program's
trace is the channel-0 read followed by the line `11.000`, with exit
status 0. -/
theorem scenario_1000mV :
    volts 1000 = 11 ∧ voltsFl 1000 = 11 ∧
    runProgram (ReadResult.ok 1000) =
      ([Effect.adcRead 0 2048 64, Effect.stdoutLine "11.000"], 0) := by decide

/-- Counterexample to C5: at the raw reading 444.5 mV the program's
binary64 computed voltage is not 4.8895 and the emitted line is not
`4.890`. -/
theorem scenario_444_5mV_claim_false :
    voltsFl (889 / 2) ≠ 4.8895 ∧
    outputLines (runProgram (ReadResult.ok (889 / 2))).1 ≠ ["4.890"] := by decide

/-- C5 (amended): at the raw reading 444.5 mV the exact-arithmetic voltage
is 4.8895, but the voltage the program computes in binary64 is
`2752543797253505 / 2^49`, below 4.8895 by less than `10^-12`, and the
emitted line is `4.889` — the correct three-decimal rounding of the value
actually computed. -/
theorem scenario_444_5mV_actual :
    volts (889 / 2) = 4.8895 ∧
    voltsFl (889 / 2) = 2752543797253505 / 562949953421312 ∧
    voltsFl (889 / 2) < 4.8895 ∧
    4.8895 - voltsFl (889 / 2) < 1 / 1000000000000 ∧
    runProgram (ReadResult.ok (889 / 2)) =
      ([Effect.adcRead 0 2048 64, Effect.stdoutLine "4.889"], 0) := by decide

/-- C6: each successful invocation performs exactly one single-ended read —
of channel 0, at the configured gain and sample rate — and writes exactly
one line to standard output; the trace holds nothing else (and `Effect` has
no other constructors, so no other state is read, written or persisted). -/
theorem one_read_one_write (raw : ℚ) :
    (runProgram (ReadResult.ok raw)).1.countP isAdcRead = 1 ∧
    (runProgram (ReadResult.ok raw)).1.countP isStdoutLine = 1 ∧
    (runProgram (ReadResult.ok raw)).1.length = 2 ∧
    (runProgram (ReadResult.ok raw)).1.head? = some (Effect.adcRead 0 gain sps) :=
  ⟨rfl, rfl, rfl, rfl⟩

/-- C7: the secondary linear calibration is disabled by default (the line
is commented out in the source, `calibrationEnabled = false`); with the
flag off the correction is the identity, so the printed voltage is exactly
the divider-corrected value with no calibration factor; and the factor does
change the value when the flag is on, so it applies only when explicitly
enabled. -/
theorem calibration_disabled_by_default :
    calibrationEnabled = false ∧
    (∀ v : ℚ, applyCalibrationFl false v = v) ∧
    (∀ raw : ℚ, outputLines (runProgram (ReadResult.ok raw)).1 = [fmt3 (voltsFl raw)]) ∧
    applyCalibrationFl true (fl 4.889) ≠ fl 4.889 :=
  ⟨rfl, fun _ => rfl, fun _ => rfl, by decide⟩

/-- C8: the divisor `r2` is the compiled-in constant 100000, which is
non-zero, and the division in the conversion is a genuine quotient: for
every reading, multiplying the computed voltage back by `r2` recovers the
numerator `m * 0.001 * (r1 + r2)`. -/
theorem division_by_r2_safe :
    r2 = 100000 ∧ r2 ≠ 0 ∧ ∀ m : ℚ, volts m * r2 = m * 0.001 * (r1 + r2) := by
  refine ⟨rfl, by norm_num [r2], fun m => ?_⟩
  rw [volts, voltsWith]
  exact div_mul_cancel₀ _ (by norm_num [r2])

/-- C9: the behaviour of an invocation is a function of the single raw
reading alone — the command-line arguments, which the script never
inspects, have no effect on the trace, the output lines, or the exit
status. -/
theorem output_independent_of_cmdline (args1 args2 : List String) (r : ReadResult) :
    scriptMain args1 r = scriptMain args2 r ∧
    outputLines (scriptMain args1 r).1 = outputLines (scriptMain args2 r).1 :=
  ⟨rfl, rfl⟩

/-- C10: with the compiled-in resistances the divider multiplier
`(r1 + r2) / r2` is exactly 11, so in exact rational arithmetic the
computed voltage is `m * 0.011` for every reading `m`. -/
theorem divider_multiplier_is_eleven :
    (r1 + r2) / r2 = 11 ∧ ∀ m : ℚ, volts m = m * 0.011 := by
  constructor
  · norm_num [r1, r2]
  · intro m
    rw [volts, voltsWith, r1, r2, show (0.001 : ℚ) = 1 / 1000 by norm_num,
      show (0.011 : ℚ) = 11 / 1000 by norm_num]
    ring

end TelemVolts
